import Mathlib

/-!
Verification of the re-encoding engine of `media-library-helper`
(`src/audio/reencode_flac.py`) against its natural-language specification.

Modelling conventions (shallow embedding):

* Python `bytes` and `str` values are modelled as `List ℕ`
  (byte values, respectively Unicode code points).
* A file opened for binary reading is modelled by the list of bytes that
  remain in front of the file cursor; `f.read(k)` is `take k` / `drop k`
  and a relative `f.seek(n, 1)` is `drop n`.
* Python exceptions raised by `get_flac_vendor_string` are modelled with
  `Except PyErr`; `TypeError` and `IndexError` are the two exceptions the
  function can raise.
* `subprocess` process handles are modelled by a `Proc` record whose exit
  code is fixed at launch by an environment oracle `exitOf`; which
  processes have terminated at the i-th poll is an environment oracle
  `oracle : ℕ → Proc → Bool`.  `while` loops that wait on the oracle are
  given fuel and return `none` if the fuel runs out.
-/

/-- Code points of a Lean string literal; stands for a Python `str`
(and, for ASCII text, equally for its UTF-8 `bytes`). -/
def pyStr (s : String) : List ℕ := s.data.map Char.toNat

/-- `int.from_bytes(l, byteorder='big')`. -/
def fromBytesBE (l : List ℕ) : ℕ := l.foldl (fun a b => a * 256 + b) 0

/-- `int.from_bytes(l, byteorder='little')`. -/
def fromBytesLE (l : List ℕ) : ℕ := l.foldr (fun b a => b + 256 * a) 0

/-- Is `b` a UTF-8 continuation byte? -/
def isCont (b : ℕ) : Bool := decide (128 ≤ b ∧ b ≤ 191)

/-- One UTF-8 decoding step: given the first byte and the bytes after it,
return the decoded code point (or `none` if the sequence is invalid) and
how many bytes after the first one the sequence consumed. -/
def utf8Step (b : ℕ) (bs : List ℕ) : Option ℕ × ℕ :=
  if b < 128 then (some b, 0)
  else if 194 ≤ b ∧ b ≤ 223 then
    match bs with
    | b2 :: _ => if isCont b2 then (some ((b - 192) * 64 + (b2 - 128)), 1) else (none, 0)
    | [] => (none, 0)
  else if 224 ≤ b ∧ b ≤ 239 then
    match bs with
    | b2 :: b3 :: _ =>
      if (if b = 224 then decide (160 ≤ b2 ∧ b2 ≤ 191)
          else if b = 237 then decide (128 ≤ b2 ∧ b2 ≤ 159)
          else isCont b2) && isCont b3 then
        (some ((b - 224) * 4096 + (b2 - 128) * 64 + (b3 - 128)), 2)
      else (none, 0)
    | _ => (none, 0)
  else if 240 ≤ b ∧ b ≤ 244 then
    match bs with
    | b2 :: b3 :: b4 :: _ =>
      if (if b = 240 then decide (144 ≤ b2 ∧ b2 ≤ 191)
          else if b = 244 then decide (128 ≤ b2 ∧ b2 ≤ 143)
          else isCont b2) && isCont b3 && isCont b4 then
        (some ((b - 240) * 262144 + (b2 - 128) * 4096 + (b3 - 128) * 64 + (b4 - 128)), 3)
      else (none, 0)
    | _ => (none, 0)
  else (none, 0)

/-- Fuelled UTF-8 decoder; each step consumes at least the first byte, so
fuel equal to the length of the input suffices. -/
def decodeUtf8Fuel : ℕ → List ℕ → List ℕ
  | _, [] => []
  | 0, _ :: _ => []
  | fuel + 1, b :: bs =>
    let s := utf8Step b bs
    match s.1 with
    | some c => c :: decodeUtf8Fuel fuel (bs.drop s.2)
    | none => decodeUtf8Fuel fuel (bs.drop s.2)

/-- `bytes.decode('utf-8', errors='ignore')`: decode, dropping bytes that
do not start a valid sequence. -/
def decodeUtf8Ignore (l : List ℕ) : List ℕ := decodeUtf8Fuel l.length l

/-- Exceptions `get_flac_vendor_string` can raise: `TypeError` for a
stream that does not start with the `fLaC` marker, `IndexError` for a
read that comes back empty where a header byte is indexed. -/
inductive PyErr
  | typeError
  | indexError
deriving DecidableEq

/-- The metadata-block scanning loop of `get_flac_vendor_string`
(lines 137-151 of `reencode_flac.py`), acting on the bytes remaining
after the 4-byte `fLaC` marker.  At each iteration the code reads a
4-byte header `data`; `data[0]` is `block_type` (the whole byte, no
masking) and `data[1:]` is the big-endian `block_length`.  An empty read
makes `data[0]` raise `IndexError`.  A type-4 block returns the
little-endian length-prefixed first field raw (still bytes); a header
byte `≥ 126` leaves the loop with the running result, initially `""`. -/
def flacLoop : List ℕ → Except PyErr (List ℕ)
  | [] => .error .indexError
  | b :: rest =>
    let blockLength := fromBytesBE (rest.take 3)
    let rem1 := rest.drop 3
    if b = 4 then
      let fieldLength := fromBytesLE (rem1.take 4)
      .ok ((rem1.drop 4).take fieldLength)
    else if b < 126 then
      flacLoop (rem1.drop blockLength)
    else
      .ok []
termination_by l => l.length
decreasing_by
  simp only [List.length_drop, List.length_cons]
  omega

/-- `get_flac_vendor_string` (lines 120-153): check the `fLaC` marker,
then scan the metadata blocks for the first vorbis-comment block and
return its decoded first field. -/
def get_flac_vendor_string (stream : List ℕ) : Except PyErr (List ℕ) :=
  if decodeUtf8Ignore (stream.take 4) ≠ pyStr "fLaC" then .error .typeError
  else
    match flacLoop (stream.drop 4) with
    | .error e => .error e
    | .ok bs => .ok (decodeUtf8Ignore bs)

/-- Helper for `pySplit`: `acc` is the current word, reversed. -/
def pySplitAux (isSep : ℕ → Bool) : List ℕ → List ℕ → List (List ℕ)
  | [], acc => if acc = [] then [] else [acc.reverse]
  | c :: cs, acc =>
    if isSep c then
      if acc = [] then pySplitAux isSep cs [] else acc.reverse :: pySplitAux isSep cs []
    else pySplitAux isSep cs (c :: acc)

/-- Python whitespace for `str.split()` (ASCII range). -/
def isSpace (c : ℕ) : Bool := decide (c = 32 ∨ c = 9 ∨ c = 10 ∨ c = 13 ∨ c = 11 ∨ c = 12)

/-- `str.split()` with no argument: split on runs of whitespace, never
producing empty words. -/
def pySplit (s : List ℕ) : List (List ℕ) := pySplitAux isSpace s []

/-- `str.split(".")`: split on each single dot (code point 46), keeping
empty pieces, so the result is never the empty list. -/
def splitDot : List ℕ → List (List ℕ)
  | [] => [[]]
  | c :: cs =>
    if c = 46 then [] :: splitDot cs
    else
      match splitDot cs with
      | [] => [[c]]
      | t :: ts => (c :: t) :: ts

/-- Python's `l[-1]` on a list of strings (the `[]` case is unreachable
for `splitDot` results, which are never empty). -/
def pyLast : List (List ℕ) → List ℕ
  | [] => []
  | [t] => t
  | _ :: t :: ts => pyLast (t :: ts)

/-- `str.lower()` restricted to ASCII letters (the only case the code's
comparisons with `'flac'`/`'fla'` can distinguish). -/
def pyLower (s : List ℕ) : List ℕ :=
  s.map (fun c => if 65 ≤ c ∧ c ≤ 90 then c + 32 else c)

/-- `is_flac` (lines 156-159): lowercase the part after the last dot and
compare with `'flac'` and `'fla'`. -/
def is_flac (file : List ℕ) : Bool :=
  let ext := pyLower (pyLast (splitDot file))
  decide (ext = pyStr "flac" ∨ ext = pyStr "fla")

/-- Modelled from the spec: `VersionTriple` — the repository calls the
external `packaging.version` library (not part of this repository) to
parse version strings; the spec describes the parsed value as a
dotted sequence of numeric components.  A version parses when every
dot-separated component is a non-empty digit string. -/
def parseVersion (s : List ℕ) : Option (List ℕ) :=
  let comps := splitDot s
  if comps.all (fun c => !c.isEmpty && c.all (fun d => decide (48 ≤ d ∧ d ≤ 57))) then
    some (comps.map (fun c => c.foldl (fun a d => a * 10 + (d - 48)) 0))
  else none

/-- Modelled from the spec: `VersionTriple` ordering — standard
lexicographic component comparison, missing components reading as 0
(an exhausted left side is smaller exactly when a nonzero component
remains on the right; an exhausted right side is never larger). -/
def versionLt : List ℕ → List ℕ → Bool
  | [], ys => ys.any (fun y => decide (0 < y))
  | _ :: _, [] => false
  | x :: xs, y :: ys => if x < y then true else if x = y then versionLt xs ys else false

/-- The token-level policy of `_needs_reencoding` (lines 170-179),
applied to the vendor string already read from the file. -/
def needsReencodeStr (s : List ℕ) (flacVersion : List ℕ) : Bool :=
  match pySplit s with
  | v0 :: v1 :: v2 :: _ =>
    if v0 = pyStr "reference" ∧ v1 = pyStr "libFLAC" then
      match parseVersion v2 with
      | some pv => versionLt pv flacVersion
      | none => true
    else true
  | _ => true

/-- `_needs_reencoding` (lines 162-179): read the vendor string of the
file's byte stream; any exception is caught and the file is skipped
(`False`); otherwise apply the token-level policy. -/
def _needs_reencoding (stream : List ℕ) (flacVersion : List ℕ) : Bool :=
  match get_flac_vendor_string stream with
  | .error _ => false
  | .ok s => needsReencodeStr s flacVersion

/-- A launched encoder process: launch index, full command line
(`Popen.args`) and the exit code the environment will give it. -/
structure Proc where
  id : ℕ
  args : List (List ℕ)
  code : ℤ
deriving DecidableEq

/-- `shlex.split('flac --best --verify --force --decode-through-errors')`
(line 89). -/
def flac_command : List (List ℕ) :=
  [pyStr "flac", pyStr "--best", pyStr "--verify", pyStr "--force",
   pyStr "--decode-through-errors"]

/-- `_wait_for_processes` (lines 182-189): at poll `t`, the processes the
oracle reports as terminated are removed from the running set, and each
one with a non-zero exit code appends `(returncode, args)` to the error
list. -/
def _wait_for_processes (oracle : ℕ → Proc → Bool) (t : ℕ)
    (processes : List Proc) (errors : List (ℤ × List (List ℕ))) :
    List Proc × List (ℤ × List (List ℕ)) :=
  let completed := processes.filter (fun p => oracle t p)
  (processes.filter (fun p => !(oracle t p)),
   errors ++ (completed.filter (fun p => decide (p.code ≠ 0))).map (fun p => (p.code, p.args)))

/-- A `while cond: _wait_for_processes(...)` loop with fuel; returns the
poll counter, the running set, the error list, and the trace of running-set
sizes observed after each poll (`none` if the fuel runs out first). -/
def drain (oracle : ℕ → Proc → Bool) (cond : List Proc → Bool) :
    ℕ → ℕ → List Proc → List (ℤ × List (List ℕ)) →
    Option (ℕ × List Proc × List (ℤ × List (List ℕ)) × List ℕ)
  | 0, t, ps, errs => if cond ps then none else some (t, ps, errs, [])
  | fuel + 1, t, ps, errs =>
    if cond ps then
      let pe := _wait_for_processes oracle t ps errs
      match drain oracle cond fuel (t + 1) pe.1 pe.2 with
      | none => none
      | some (t', ps', errs', tr) => some (t', ps', errs', pe.1.length :: tr)
    else some (t, ps, errs, [])

/-- The launch loop of `reencode_flac` (lines 94-99): for each candidate
file, launch an encoder process, then poll while the running set has at
least `n` members.  The returned trace records the running-set size after
each launch and after each poll. -/
def launchLoop (oracle : ℕ → Proc → Bool) (exitOf : List ℕ → ℤ) (n fuel : ℕ) :
    List (List ℕ) → ℕ → ℕ → List Proc → List (ℤ × List (List ℕ)) →
    Option (ℕ × List Proc × List (ℤ × List (List ℕ)) × List ℕ)
  | [], _, t, ps, errs => some (t, ps, errs, [])
  | f :: rest, cnt, t, ps, errs =>
    let ps1 := ps ++ [⟨cnt, flac_command ++ [f], exitOf f⟩]
    match drain oracle (fun l => decide (n ≤ l.length)) fuel t ps1 errs with
    | none => none
    | some (t', ps2, errs2, tr) =>
      match launchLoop oracle exitOf n fuel rest (cnt + 1) t' ps2 errs2 with
      | none => none
      | some (t'', ps3, errs3, tr2) => some (t'', ps3, errs3, ps1.length :: (tr ++ tr2))

/-- The whole encode phase of `reencode_flac` (lines 88-103): the launch
loop over the candidates followed by the final
`while len(processes) > 0` drain.  Returns the error list and the trace
of running-set sizes. -/
def orchRun (oracle : ℕ → Proc → Bool) (exitOf : List ℕ → ℤ) (n fuel : ℕ)
    (files : List (List ℕ)) : Option (List (ℤ × List (List ℕ)) × List ℕ) :=
  match launchLoop oracle exitOf n fuel files 0 0 [] [] with
  | none => none
  | some (t, ps, errs, tr) =>
    match drain oracle (fun l => decide (0 < l.length)) fuel t ps errs with
    | none => none
    | some (_, _, errs2, tr2) => some (errs2, tr ++ tr2)

/-- Environment facts `reencode_flac` observes before encoding:
whether `os.path.isdir(lib_path)` holds, and the last whitespace token of
the `flac -v` output (`none` when running `flac` failed or produced no
token, both of which land in the generic `except` branch). -/
structure Env where
  validDir : Bool
  liveTok : Option (List ℕ)

/-- The values `reencode_flac` prints as its final report. -/
structure Report where
  sizeMB : ℕ
  newSizeMB : ℕ
  savedMB : ℤ
  errors : List (ℤ × List (List ℕ))
  trace : List ℕ
deriving DecidableEq

/-- Outcome of a `reencode_flac` run: `fail` for every `return 1` branch,
`done` with the report for the `return 0` path. -/
inductive EngineResult
  | fail
  | done (rep : Report)
deriving DecidableEq

/-- The process exit code of an `EngineResult`. -/
def EngineResult.ret : EngineResult → ℕ
  | .fail => 1
  | .done _ => 0

/-- `reencode_flac` (lines 22-117).  File discovery is a collaborator, so
the walked file names arrive as `files`; `content` gives each file's
bytes, `sizeBefore`/`sizeAfter` its size when summed before/after the
encode phase.  Sizes are reported in whole MB: `int(sum(...)/(1000**2))`.
Returns `none` only if the encode phase runs out of fuel. -/
def reencode_flac (env : Env) (min_version : Option (List ℕ)) (force : Bool)
    (n_procs : ℤ) (files : List (List ℕ)) (content : List ℕ → List ℕ)
    (sizeBefore sizeAfter : List ℕ → ℕ) (oracle : ℕ → Proc → Bool)
    (exitOf : List ℕ → ℤ) (fuel : ℕ) : Option EngineResult :=
  if env.validDir = false then some .fail
  else
    let nprocs : ℕ := if n_procs < 1 then 4 else n_procs.toNat
    match env.liveTok with
    | none => some .fail
    | some tok =>
      match parseVersion tok with
      | none => some .fail
      | some flacVer =>
        let target? : Option (List ℕ) :=
          match min_version with
          | none => some flacVer
          | some s =>
            match parseVersion s with
            | none => none
            | some mv => if versionLt flacVer mv then none else some mv
        match target? with
        | none => some .fail
        | some target =>
          let flacFiles := files.filter is_flac
          let candidates :=
            if force then flacFiles
            else flacFiles.filter (fun f => _needs_reencoding (content f) target)
          let fileSizeMB := (candidates.map sizeBefore).sum / 1000000
          match orchRun oracle exitOf nprocs fuel candidates with
          | none => none
          | some (errs, tr) =>
            let newSizeMB := (candidates.map sizeAfter).sum / 1000000
            some (.done { sizeMB := fileSizeMB, newSizeMB := newSizeMB,
                          savedMB := (fileSizeMB : ℤ) - (newSizeMB : ℤ),
                          errors := errs, trace := tr })

/-- Trace of running-set sizes of an orchestrator run (empty if the run
returned `none`). -/
def traceOf : Option (List (ℤ × List (List ℕ)) × List ℕ) → List ℕ
  | none => []
  | some (_, tr) => tr

/-- The reported space saving (in MB) of an engine run, when it produced
a report. -/
def savedOf : Option EngineResult → Option ℤ
  | some (.done r) => some r.savedMB
  | _ => none

/-- Modelled from the spec: the setup/validation conditions of §6 and §7
(valid base directory, runnable encoder with a parseable version, and a
requested minimum version that parses and does not exceed the live
version).  `reencode_flac` is claimed to exit 0 exactly when they hold. -/
def setupOkB (env : Env) (min_version : Option (List ℕ)) : Bool :=
  env.validDir &&
    match env.liveTok with
    | none => false
    | some tok =>
      match parseVersion tok with
      | none => false
      | some lv =>
        match min_version with
        | none => true
        | some s =>
          match parseVersion s with
          | none => false
          | some mv => !(versionLt lv mv)

/-- The text after the last dot of a string: the longest suffix free of
the dot character, i.e. the reversed longest dot-free prefix of the
reversed string.  (The whole string when it has no dot.) -/
def extAfterLastDot (s : List ℕ) : List ℕ :=
  (s.reverse.takeWhile (fun c => decide (c ≠ 46))).reverse

theorem splitDot_ne_nil (s : List ℕ) : splitDot s ≠ [] := by
  match s with
  | [] => simp [splitDot]
  | c :: cs =>
    simp only [splitDot]
    split
    · simp
    · split <;> simp

theorem splitDot_no_dot (s : List ℕ) (h : 46 ∉ s) : splitDot s = [s] := by
  induction s with
  | nil => rfl
  | cons c cs ih =>
    have hc : c ≠ 46 := fun hc => h (hc ▸ List.mem_cons_self c cs)
    have hcs : 46 ∉ cs := fun hm => h (List.mem_cons_of_mem c hm)
    simp only [splitDot, if_neg hc, ih hcs]

theorem splitDot_len2 (s : List ℕ) (h : 46 ∈ s) : 2 ≤ (splitDot s).length := by
  induction s with
  | nil => simp at h
  | cons c cs ih =>
    by_cases hc : c = 46
    · subst hc
      have h1 := List.length_pos.mpr (splitDot_ne_nil cs)
      simp [splitDot]
      omega
    · have hcs : 46 ∈ cs := by
        rcases List.mem_cons.mp h with h1 | h1
        · exact absurd h1.symm hc
        · exact h1
      simp only [splitDot, if_neg hc]
      rcases hts : splitDot cs with _ | ⟨t, ts⟩
      · exact absurd hts (splitDot_ne_nil cs)
      · have := ih hcs
        rw [hts] at this
        simpa using this

theorem pyLast_cons (a : List ℕ) (l : List (List ℕ)) (h : l ≠ []) :
    pyLast (a :: l) = pyLast l := by
  match l with
  | [] => exact absurd rfl h
  | t :: ts => rfl

theorem takeWhile_append_all {p : ℕ → Bool} (l₁ l₂ : List ℕ)
    (h : ∀ x ∈ l₁, p x = true) : (l₁ ++ l₂).takeWhile p = l₁ ++ l₂.takeWhile p := by
  induction l₁ with
  | nil => simp
  | cons a l ih =>
    have ha := h a (List.mem_cons_self a l)
    simp [List.takeWhile_cons, ha, ih (fun x hx => h x (List.mem_cons_of_mem a hx))]

theorem takeWhile_append_stop {p : ℕ → Bool} (l₁ l₂ : List ℕ)
    (h : ∃ x ∈ l₁, p x = false) : (l₁ ++ l₂).takeWhile p = l₁.takeWhile p := by
  induction l₁ with
  | nil => simp at h
  | cons a l ih =>
    rcases h with ⟨x, hx, hpx⟩
    rcases List.mem_cons.mp hx with rfl | hxl
    · simp [List.takeWhile_cons, hpx]
    · by_cases ha : p a
      · simp [List.takeWhile_cons, ha, ih ⟨x, hxl, hpx⟩]
      · have ha' : p a = false := by simpa using ha
        simp [List.takeWhile_cons, ha']

theorem pyLast_splitDot (s : List ℕ) : pyLast (splitDot s) = extAfterLastDot s := by
  induction s with
  | nil => rfl
  | cons c cs ih =>
    by_cases hcs : 46 ∈ cs
    · -- the last dot lies in `cs`: both sides ignore `c`
      have lhs : pyLast (splitDot (c :: cs)) = pyLast (splitDot cs) := by
        by_cases hc : c = 46
        · subst hc
          simp only [splitDot, if_pos rfl]
          exact pyLast_cons _ _ (splitDot_ne_nil cs)
        · simp only [splitDot, if_neg hc]
          rcases hts : splitDot cs with _ | ⟨t, ts⟩
          · exact absurd hts (splitDot_ne_nil cs)
          · have h2 := splitDot_len2 cs hcs
            rw [hts] at h2
            rcases ts with _ | ⟨t', ts'⟩
            · simp at h2
            · rfl
      have rhs : extAfterLastDot (c :: cs) = extAfterLastDot cs := by
        unfold extAfterLastDot
        rw [List.reverse_cons, takeWhile_append_stop]
        exact ⟨46, List.mem_reverse.mpr hcs, by simp⟩
      rw [lhs, rhs, ih]
    · -- no dot in `cs`
      have hall : ∀ x ∈ cs.reverse, (fun c => decide (c ≠ 46)) x = true := by
        intro x hx
        have : x ∈ cs := List.mem_reverse.mp hx
        simp only [decide_eq_true_eq]
        exact fun h46 => hcs (h46 ▸ this)
      by_cases hc : c = 46
      · subst hc
        have lhs : pyLast (splitDot (46 :: cs)) = cs := by
          simp only [splitDot, if_pos rfl, splitDot_no_dot cs hcs]
          rfl
        have rhs : extAfterLastDot (46 :: cs) = cs := by
          unfold extAfterLastDot
          rw [List.reverse_cons, takeWhile_append_all _ _ hall]
          simp
        rw [lhs, rhs]
      · have lhs : pyLast (splitDot (c :: cs)) = c :: cs := by
          simp only [splitDot, if_neg hc, splitDot_no_dot cs hcs]
          rfl
        have rhs : extAfterLastDot (c :: cs) = c :: cs := by
          unfold extAfterLastDot
          rw [List.reverse_cons, takeWhile_append_all _ _ hall]
          simp [hc]
        rw [lhs, rhs]

/-- C10: for every file name, `is_flac` returns true iff the substring
after the last dot (the entire name when it contains no dot), lowercased,
equals `"flac"` or `"fla"`; matching is case-insensitive, the legacy
`"fla"` extension is accepted, and a dotless name equal to `"flac"` or
`"fla"` is accepted. -/
theorem is_flac_iff (file : List ℕ) :
    is_flac file = true ↔
      (pyLower (extAfterLastDot file) = pyStr "flac" ∨
       pyLower (extAfterLastDot file) = pyStr "fla") := by
  unfold is_flac
  rw [pyLast_splitDot]
  simp

/-- C1: for every vendor string of the form `reference <Name> X.Y.Z`
(at least three whitespace-separated tokens beginning with the
`("reference", "libFLAC")` reference-encoder marker) whose third token
parses as a version, the policy returns true iff the parsed version is
strictly below the target version; equal or greater gives false. -/
theorem policy_true_iff_version_lt (s vtok : List ℕ) (rest : List (List ℕ)) (pv target : List ℕ)
    (hsp : pySplit s = pyStr "reference" :: pyStr "libFLAC" :: vtok :: rest)
    (hpv : parseVersion vtok = some pv) :
    needsReencodeStr s target = versionLt pv target := by
  unfold needsReencodeStr
  rw [hsp]
  simp [hpv]

/-- Witness for C1 at the vendor string `reference libFLAC 1.2.3` and
target version `1.3.0`. -/
theorem policy_true_iff_version_lt_witness :
    pySplit (pyStr "reference libFLAC 1.2.3") =
      pyStr "reference" :: pyStr "libFLAC" :: pyStr "1.2.3" :: [] ∧
    parseVersion (pyStr "1.2.3") = some [1, 2, 3] ∧
    needsReencodeStr (pyStr "reference libFLAC 1.2.3") [1, 3, 0] = versionLt [1, 2, 3] [1, 3, 0] :=
  ⟨by decide, by decide,
   policy_true_iff_version_lt (pyStr "reference libFLAC 1.2.3") (pyStr "1.2.3") []
     [1, 2, 3] [1, 3, 0] (by decide) (by decide)⟩

/-- C4: a vendor string that does not decompose into the
`("reference", "libFLAC")` marker followed by a third token (fewer than
3 tokens, or a wrong marker) makes the policy return true, and so does a
matching vendor string whose third token fails to parse as a version. -/
theorem policy_nonmatching_true :
    (∀ s target, (∀ vtok rest, pySplit s ≠ pyStr "reference" :: pyStr "libFLAC" :: vtok :: rest) →
      needsReencodeStr s target = true) ∧
    (∀ s vtok rest target, pySplit s = pyStr "reference" :: pyStr "libFLAC" :: vtok :: rest →
      parseVersion vtok = none → needsReencodeStr s target = true) := by
  constructor
  · intro s target h
    unfold needsReencodeStr
    rcases hsp : pySplit s with _ | ⟨a, _ | ⟨b, _ | ⟨c, r⟩⟩⟩
    · rfl
    · rfl
    · rfl
    · by_cases hab : a = pyStr "reference" ∧ b = pyStr "libFLAC"
      · exact absurd (by rw [hsp, hab.1, hab.2]) (h c r)
      · simp [if_neg hab]
  · intro s vtok rest target hsp hpv
    unfold needsReencodeStr
    rw [hsp]
    simp [hpv]

/-- Witness for C4 at the shapeless vendor string `hello` and at
`reference libFLAC abc`, whose version token does not parse. -/
theorem policy_nonmatching_true_witness :
    needsReencodeStr (pyStr "hello") [1, 0] = true ∧
    needsReencodeStr (pyStr "reference libFLAC abc") [1, 0] = true :=
  ⟨policy_nonmatching_true.1 (pyStr "hello") [1, 0]
    (fun vtok rest h => by
      rw [show pySplit (pyStr "hello") = [pyStr "hello"] from by decide] at h
      simp at h),
   policy_nonmatching_true.2 (pyStr "reference libFLAC abc") (pyStr "abc") [] [1, 0]
    (by decide) (by decide)⟩

theorem take4_magic (X : List ℕ) : List.take 4 ([102, 76, 97, 67] ++ X) = [102, 76, 97, 67] := rfl

theorem drop4_magic (X : List ℕ) : List.drop 4 ([102, 76, 97, 67] ++ X) = X := rfl

theorem magic_decodes : decodeUtf8Ignore [102, 76, 97, 67] = [102, 76, 97, 67] := by decide

/-- C5: on a well-formed stream — magic marker, one skipped metadata
block whose declared length matches its payload, then a comment block
whose first field is `reference libXYZ 1.4.2` — `get_flac_vendor_string`
reads the 4-byte little-endian vendor length (22), reads exactly that
many bytes and returns exactly that string, for every remainder of the
comment block and of the stream (it stops without reading them). -/
theorem readVendorString_returns_vendor (junk : List ℕ) (c1 c2 c3 : ℕ) (tail : List ℕ) :
    get_flac_vendor_string
      (pyStr "fLaC" ++ 0 :: 0 :: 0 :: junk.length ::
        (junk ++ 4 :: c1 :: c2 :: c3 :: 22 :: 0 :: 0 :: 0 ::
          (pyStr "reference libXYZ 1.4.2" ++ tail))) =
    .ok (pyStr "reference libXYZ 1.4.2") := by
  unfold get_flac_vendor_string
  rw [show pyStr "fLaC" = [102, 76, 97, 67] from rfl, take4_magic, drop4_magic, magic_decodes]
  rw [show pyStr "reference libXYZ 1.4.2" =
    [114,101,102,101,114,101,110,99,101,32,108,105,98,88,89,90,32,49,46,52,46,50] from rfl]
  rw [flacLoop]
  simp only [List.take, List.drop, fromBytesBE, List.foldl]
  norm_num
  rw [flacLoop]
  simp only [List.take, List.drop, fromBytesLE, List.foldr]
  norm_num
  rfl

/-- C3 counterexample: a comment block that is the last metadata block
carries header byte `132 = 0x80 ∣ 4`; the claim says the low 7 bits are
used as the block type, so the block would be recognized and its vendor
string `reference libXYZ 1.4.2` returned — but the code compares the
whole byte with 4, skips the block and returns the empty string. -/
theorem blockType_flag_counterexample :
    get_flac_vendor_string
      (pyStr "fLaC" ++ [132, 0, 0, 26] ++ [22, 0, 0, 0] ++ pyStr "reference libXYZ 1.4.2") =
      .ok [] ∧
    pyStr "reference libXYZ 1.4.2" ≠ ([] : List ℕ) := by
  constructor
  · unfold get_flac_vendor_string
    rw [show pyStr "fLaC" = [102, 76, 97, 67] from rfl]
    rw [show pyStr "reference libXYZ 1.4.2" =
      [114,101,102,101,114,101,110,99,101,32,108,105,98,88,89,90,32,49,46,52,46,50] from rfl]
    simp [flacLoop, magic_decodes, take4_magic, drop4_magic]
    rfl
  · simp [pyStr]

/-- C3 (amended): the block type compared with 4 is the entire first
header byte, not its low 7 bits; any header byte `≥ 126` — in particular
`132`, a comment block with the last-metadata-block flag set — ends the
scan at once, and the vendor string returned is the empty string. -/
theorem flag_set_header_stops_scan (b l1 l2 l3 : ℕ) (tail : List ℕ) (hb : 126 ≤ b) :
    get_flac_vendor_string (pyStr "fLaC" ++ b :: l1 :: l2 :: l3 :: tail) = .ok [] := by
  have h4 : ¬(b = 4) := by omega
  have h126 : ¬(b < 126) := by omega
  unfold get_flac_vendor_string
  rw [show pyStr "fLaC" = [102, 76, 97, 67] from rfl, take4_magic, drop4_magic, magic_decodes]
  rw [flacLoop]
  simp [h4, h126]
  rfl

/-- Witness for the amended C3 at header byte 132 (flagged comment
block). -/
theorem flag_set_header_stops_scan_witness :
    (126 : ℕ) ≤ 132 ∧
    get_flac_vendor_string
      (pyStr "fLaC" ++ 132 :: 0 :: 0 :: 26 :: (22 :: 0 :: 0 :: 0 :: pyStr "reference libXYZ 1.4.2")) =
      .ok [] :=
  ⟨by decide,
   flag_set_header_stops_scan 132 0 0 26 (22 :: 0 :: 0 :: 0 :: pyStr "reference libXYZ 1.4.2")
     (by decide)⟩

/-- C9: whenever `get_flac_vendor_string` raises — in particular on the
truncated streams below, which begin with the magic marker but end
before the metadata scan completes — the error reaches the policy layer
as an error value (never a normal return), `_needs_reencoding` catches
it and returns false, so the file is skipped and the run continues. -/
theorem reader_error_policy_skip :
    (∀ s target e, get_flac_vendor_string s = .error e → _needs_reencoding s target = false) ∧
    (∀ junk target, junk.length ≤ 255 →
      get_flac_vendor_string (pyStr "fLaC" ++ 0 :: 0 :: 1 :: 0 :: junk) = .error .indexError ∧
      _needs_reencoding (pyStr "fLaC" ++ 0 :: 0 :: 1 :: 0 :: junk) target = false) := by
  have part1 : ∀ s target e, get_flac_vendor_string s = .error e →
      _needs_reencoding s target = false := by
    intro s target e h
    unfold _needs_reencoding
    rw [h]
  refine ⟨part1, fun junk target hlen => ?_⟩
  have herr : get_flac_vendor_string (pyStr "fLaC" ++ 0 :: 0 :: 1 :: 0 :: junk) =
      .error .indexError := by
    unfold get_flac_vendor_string
    rw [show pyStr "fLaC" = [102, 76, 97, 67] from rfl, take4_magic, drop4_magic, magic_decodes]
    rw [flacLoop]
    simp only [List.take, List.drop, fromBytesBE, List.foldl]
    norm_num
    rw [List.drop_eq_nil_of_le (by omega : junk.length ≤ 256)]
    rw [flacLoop]
  exact ⟨herr, part1 _ target _ herr⟩

/-- Witness for C9 at the truncated stream `fLaC` + a block header
promising 256 bytes with none present. -/
theorem reader_error_policy_skip_witness :
    get_flac_vendor_string (pyStr "fLaC" ++ 0 :: 0 :: 1 :: 0 :: []) = .error .indexError ∧
    _needs_reencoding (pyStr "fLaC" ++ 0 :: 0 :: 1 :: 0 :: []) [1, 4, 2] = false :=
  reader_error_policy_skip.2 [] [1, 4, 2] (by decide)

theorem wait_length_le (o : ℕ → Proc → Bool) (t : ℕ) (ps : List Proc)
    (errs : List (ℤ × List (List ℕ))) :
    ((_wait_for_processes o t ps errs).1).length ≤ ps.length :=
  List.length_filter_le _ _

theorem drain_spec (fuel : ℕ) :
    ∀ (o : ℕ → Proc → Bool) (cond : List Proc → Bool) (t : ℕ) (ps : List Proc)
      (errs : List (ℤ × List (List ℕ))) t' ps' errs' tr,
      drain o cond fuel t ps errs = some (t', ps', errs', tr) →
      ps'.length ≤ ps.length ∧ (∀ x ∈ tr, x ≤ ps.length) ∧ cond ps' = false := by
  induction fuel with
  | zero =>
    intro o cond t ps errs t' ps' errs' tr h
    simp only [drain] at h
    split at h
    · exact absurd h (by simp)
    · obtain ⟨rfl, rfl, rfl, rfl⟩ : t = t' ∧ ps = ps' ∧ errs = errs' ∧ [] = tr := by
        simpa [Prod.ext_iff] using h
      refine ⟨le_refl _, by simp, ?_⟩
      simpa using ‹¬cond ps = true›
  | succ fuel ih =>
    intro o cond t ps errs t' ps' errs' tr h
    simp only [drain] at h
    split at h
    · rcases hdr : drain o cond fuel (t + 1) (_wait_for_processes o t ps errs).1
          (_wait_for_processes o t ps errs).2 with _ | ⟨t1, ps1, errs1, tr1⟩
      · rw [hdr] at h
        exact absurd h (by simp)
      · rw [hdr] at h
        obtain ⟨rfl, rfl, rfl, rfl⟩ :
            t1 = t' ∧ ps1 = ps' ∧ errs1 = errs' ∧
              (_wait_for_processes o t ps errs).1.length :: tr1 = tr := by
          simpa [Prod.ext_iff] using h
        obtain ⟨h1, h2, h3⟩ := ih o cond (t + 1) _ _ _ _ _ _ hdr
        have hw := wait_length_le o t ps errs
        refine ⟨le_trans h1 hw, ?_, h3⟩
        intro x hx
        rcases List.mem_cons.mp hx with rfl | hx1
        · exact hw
        · exact le_trans (h2 x hx1) hw
    · obtain ⟨rfl, rfl, rfl, rfl⟩ : t = t' ∧ ps = ps' ∧ errs = errs' ∧ [] = tr := by
        simpa [Prod.ext_iff] using h
      refine ⟨le_refl _, by simp, ?_⟩
      simpa using ‹¬cond ps = true›

theorem launchLoop_spec (queue : List (List ℕ)) :
    ∀ (o : ℕ → Proc → Bool) (e : List ℕ → ℤ) (n fuel cnt t : ℕ) (ps : List Proc)
      (errs : List (ℤ × List (List ℕ))) t' ps' errs' tr,
      0 < n → ps.length < n →
      launchLoop o e n fuel queue cnt t ps errs = some (t', ps', errs', tr) →
      (∀ x ∈ tr, x ≤ n) ∧ ps'.length < n := by
  induction queue with
  | nil =>
    intro o e n fuel cnt t ps errs t' ps' errs' tr hn hlt h
    obtain ⟨rfl, rfl, rfl, rfl⟩ : t = t' ∧ ps = ps' ∧ errs = errs' ∧ [] = tr := by
      simpa [launchLoop, Prod.ext_iff] using h
    exact ⟨by simp, hlt⟩
  | cons f rest ih =>
    intro o e n fuel cnt t ps errs t' ps' errs' tr hn hlt h
    simp only [launchLoop] at h
    rcases hdr : drain o (fun l => decide (n ≤ l.length)) fuel t
        (ps ++ [⟨cnt, flac_command ++ [f], e f⟩]) errs with _ | ⟨t1, ps2, errs2, tr1⟩
    · rw [hdr] at h
      exact absurd h (by simp)
    · rw [hdr] at h
      dsimp only at h
      rcases hrec : launchLoop o e n fuel rest (cnt + 1) t1 ps2 errs2
          with _ | ⟨t2, ps3, errs3, tr2⟩
      · rw [hrec] at h
        exact absurd h (by simp)
      · rw [hrec] at h
        obtain ⟨rfl, rfl, rfl, rfl⟩ :
            t2 = t' ∧ ps3 = ps' ∧ errs3 = errs' ∧
              (ps ++ [⟨cnt, flac_command ++ [f], e f⟩] : List Proc).length :: (tr1 ++ tr2) = tr := by
          simpa [Prod.ext_iff] using h
        obtain ⟨hd1, hd2, hd3⟩ := drain_spec fuel o _ t _ errs _ _ _ _ hdr
        have hps1 : (ps ++ [⟨cnt, flac_command ++ [f], e f⟩] : List Proc).length ≤ n := by
          simp only [List.length_append, List.length_cons, List.length_nil]
          omega
        have hps2 : ps2.length < n := by
          have := of_decide_eq_false hd3
          omega
        obtain ⟨hr1, hr2⟩ := ih o e n fuel (cnt + 1) t1 ps2 errs2 _ _ _ _ hn hps2 hrec
        refine ⟨?_, hr2⟩
        intro x hx
        rcases List.mem_cons.mp hx with rfl | hx1
        · exact hps1
        · rcases List.mem_append.mp hx1 with hx2 | hx2
          · exact le_trans (hd2 x hx2) hps1
          · exact hr1 x hx2

/-- C2: for every oracle, exit-code assignment, concurrency limit
`n ≥ 1`, fuel and candidate list longer than `n`, every running-set size
the orchestrator ever reaches (the trace records the size after each
launch and after each poll) is at most `n`: a new task is launched only
after the polling loop has brought the in-flight set below capacity. -/
theorem orchestrator_inflight_bounded (o : ℕ → Proc → Bool) (e : List ℕ → ℤ)
    (n fuel : ℕ) (files : List (List ℕ)) (hn : 1 ≤ n) (hM : n < files.length) :
    (traceOf (orchRun o e n fuel files)).all (fun x => decide (x ≤ n)) = true := by
  unfold orchRun
  rcases h1 : launchLoop o e n fuel files 0 0 [] [] with _ | ⟨t, ps, errs, tr⟩
  · simp [traceOf]
  · dsimp only
    obtain ⟨hl1, hl2⟩ := launchLoop_spec files o e n fuel 0 0 [] [] _ _ _ _
      (by omega) (by simpa using hn) h1
    rcases h2 : drain o (fun l => decide (0 < l.length)) fuel t ps errs
        with _ | ⟨t2, ps2, errs2, tr2⟩
    · simp [traceOf]
    · dsimp only
      obtain ⟨hd1, hd2, hd3⟩ := drain_spec fuel o _ t ps errs _ _ _ _ h2
      simp only [traceOf, List.all_eq_true]
      intro x hx
      rcases List.mem_append.mp hx with hx1 | hx1
      · exact decide_eq_true_eq.mpr (hl1 x hx1)
      · have hx2 := hd2 x hx1
        exact decide_eq_true_eq.mpr (by omega)

/-- Witness for C2 at limit 1 with two candidates and an oracle that
completes every process at the first poll. -/
theorem orchestrator_inflight_bounded_witness :
    (traceOf (orchRun (fun _ _ => true) (fun _ => 0) 1 5
        [pyStr "a.flac", pyStr "b.flac"])).all (fun x => decide (x ≤ 1)) = true :=
  orchestrator_inflight_bounded (fun _ _ => true) (fun _ => 0) 1 5
    [pyStr "a.flac", pyStr "b.flac"] (by decide) (by decide)

theorem drain_nil_spec (fuel : ℕ) :
    ∀ (o : ℕ → Proc → Bool) (cond : List Proc → Bool) (t : ℕ)
      (errs : List (ℤ × List (List ℕ))) t' ps' errs' tr,
      drain o cond fuel t [] errs = some (t', ps', errs', tr) →
      ps' = [] ∧ errs' = errs := by
  induction fuel with
  | zero =>
    intro o cond t errs t' ps' errs' tr h
    simp only [drain] at h
    split at h
    · exact absurd h (by simp)
    · obtain ⟨rfl, rfl, rfl, rfl⟩ : t = t' ∧ [] = ps' ∧ errs = errs' ∧ [] = tr := by
        simpa [Prod.ext_iff] using h
      exact ⟨rfl, rfl⟩
  | succ fuel ih =>
    intro o cond t errs t' ps' errs' tr h
    simp only [drain, _wait_for_processes, List.filter_nil, List.map_nil,
      List.append_nil] at h
    split at h
    · rcases hdr : drain o cond fuel (t + 1) [] errs with _ | ⟨t1, ps1, errs1, tr1⟩
      · rw [hdr] at h
        exact absurd h (by simp)
      · rw [hdr] at h
        obtain ⟨rfl, rfl, rfl, rfl⟩ :
            t1 = t' ∧ ps1 = ps' ∧ errs1 = errs' ∧ (0 : ℕ) :: tr1 = tr := by
          simpa [Prod.ext_iff] using h
        exact ih o cond (t + 1) errs _ _ _ _ hdr
    · obtain ⟨rfl, rfl, rfl, rfl⟩ : t = t' ∧ [] = ps' ∧ errs = errs' ∧ [] = tr := by
        simpa [Prod.ext_iff] using h
      exact ⟨rfl, rfl⟩

theorem drain_one_spec (fuel : ℕ) :
    ∀ (o : ℕ → Proc → Bool) (cond : List Proc → Bool) (t : ℕ) (p : Proc)
      (errs : List (ℤ × List (List ℕ))) t' ps' errs' tr,
      drain o cond fuel t [p] errs = some (t', ps', errs', tr) →
      (ps' = [p] ∧ errs' = errs) ∨
      (ps' = [] ∧ errs' = errs ++ (if p.code ≠ 0 then [(p.code, p.args)] else [])) := by
  induction fuel with
  | zero =>
    intro o cond t p errs t' ps' errs' tr h
    simp only [drain] at h
    split at h
    · exact absurd h (by simp)
    · obtain ⟨rfl, rfl, rfl, rfl⟩ : t = t' ∧ [p] = ps' ∧ errs = errs' ∧ [] = tr := by
        simpa [Prod.ext_iff] using h
      exact Or.inl ⟨rfl, rfl⟩
  | succ fuel ih =>
    intro o cond t p errs t' ps' errs' tr h
    simp only [drain] at h
    split at h
    · by_cases ho : o t p = true
      · have hw : _wait_for_processes o t [p] errs =
            ([], errs ++ if p.code ≠ 0 then [(p.code, p.args)] else []) := by
          by_cases hc : p.code ≠ 0 <;>
            simp [_wait_for_processes, List.filter_cons, ho, hc]
        rw [hw] at h
        dsimp only at h
        rcases hdr : drain o cond fuel (t + 1) []
            (errs ++ if p.code ≠ 0 then [(p.code, p.args)] else [])
            with _ | ⟨t1, ps1, errs1, tr1⟩
        · rw [hdr] at h
          exact absurd h (by simp)
        · rw [hdr] at h
          obtain ⟨rfl, rfl, rfl, rfl⟩ :
              t1 = t' ∧ ps1 = ps' ∧ errs1 = errs' ∧ (0 : ℕ) :: tr1 = tr := by
            simpa [Prod.ext_iff] using h
          obtain ⟨h1, h2⟩ := drain_nil_spec fuel o cond (t + 1) _ _ _ _ _ hdr
          exact Or.inr ⟨h1, h2⟩
      · have ho' : o t p = false := by simpa using ho
        have hw : _wait_for_processes o t [p] errs = ([p], errs) := by
          simp [_wait_for_processes, List.filter_cons, ho']
        rw [hw] at h
        dsimp only at h
        rcases hdr : drain o cond fuel (t + 1) [p] errs with _ | ⟨t1, ps1, errs1, tr1⟩
        · rw [hdr] at h
          exact absurd h (by simp)
        · rw [hdr] at h
          obtain ⟨rfl, rfl, rfl, rfl⟩ :
              t1 = t' ∧ ps1 = ps' ∧ errs1 = errs' ∧ (1 : ℕ) :: tr1 = tr := by
            simpa [Prod.ext_iff] using h
          exact ih o cond (t + 1) p errs _ _ _ _ hdr
    · obtain ⟨rfl, rfl, rfl, rfl⟩ : t = t' ∧ [p] = ps' ∧ errs = errs' ∧ [] = tr := by
        simpa [Prod.ext_iff] using h
      exact Or.inl ⟨rfl, rfl⟩

/-- C7: a run with exactly one candidate produces a failure list with
exactly one entry, holding the process exit code and the exact full
command line, when the encoder exits nonzero — and no entry at all when
it exits zero. -/
theorem single_failure_recorded (o : ℕ → Proc → Bool) (e : List ℕ → ℤ) (n fuel : ℕ)
    (f : List ℕ) (hs : (orchRun o e n fuel [f]).isSome = true) :
    Option.map Prod.fst (orchRun o e n fuel [f]) =
      some (if e f ≠ 0 then [(e f, flac_command ++ [f])] else []) := by
  unfold orchRun at hs ⊢
  simp only [launchLoop, List.nil_append] at hs ⊢
  rcases hdr : drain o (fun l => decide (n ≤ l.length)) fuel 0
      [⟨0, flac_command ++ [f], e f⟩] [] with _ | ⟨t1, ps2, errs2, tr1⟩
  · rw [hdr] at hs
    simp at hs
  · rw [hdr] at hs
    dsimp only at hs ⊢
    rcases drain_one_spec fuel o _ 0 _ [] _ _ _ _ hdr with ⟨hA1, hA2⟩ | ⟨hB1, hB2⟩
    · subst hA1
      subst hA2
      rcases hd2 : drain o (fun l => decide (0 < l.length)) fuel t1
          [⟨0, flac_command ++ [f], e f⟩] [] with _ | ⟨t2, ps3, errs3, tr2⟩
      · rw [hd2] at hs
        simp at hs
      · dsimp only
        rcases drain_one_spec fuel o _ t1 _ [] _ _ _ _ hd2 with ⟨hC1, hC2⟩ | ⟨hD1, hD2⟩
        · obtain ⟨_, _, hcond⟩ := drain_spec fuel o _ t1 _ [] _ _ _ _ hd2
          rw [hC1] at hcond
          simp at hcond
        · rw [hD2]
          simp
    · subst hB1
      subst hB2
      rcases hd2 : drain o (fun l => decide (0 < l.length)) fuel t1 []
          (([] : List (ℤ × List (List ℕ))) ++
            if (⟨0, flac_command ++ [f], e f⟩ : Proc).code ≠ 0
            then [((⟨0, flac_command ++ [f], e f⟩ : Proc).code,
                   (⟨0, flac_command ++ [f], e f⟩ : Proc).args)] else [])
          with _ | ⟨t2, ps3, errs3, tr2⟩
      · rw [hd2] at hs
        simp at hs
      · dsimp only
        obtain ⟨h1, h2⟩ := drain_nil_spec fuel o _ t1 _ _ _ _ _ hd2
        rw [h2]
        simp

/-- Witness for C7 at a single candidate whose process exits with
code 2. -/
theorem single_failure_recorded_witness :
    Option.map Prod.fst (orchRun (fun _ _ => true) (fun _ => (2 : ℤ)) 1 3 [pyStr "x.flac"]) =
      some [((2 : ℤ), flac_command ++ [pyStr "x.flac"])] := by
  have h := single_failure_recorded (fun _ _ => true) (fun _ => (2 : ℤ)) 1 3 (pyStr "x.flac")
    (by decide)
  simpa using h

/-- An environment in which setup succeeds: valid directory and a live
encoder reporting version 1.5.0. -/
def envGood : Env := ⟨true, some (pyStr "1.5.0")⟩

/-- C8: whenever a run of the engine returns, its process exit code is 0
exactly when the setup/validation conditions hold (valid base directory,
runnable encoder with parseable version, and a requested minimum
version, if any, that parses and is not above the live version) —
regardless of force flag, candidate count or per-file encoder failures —
and 1 exactly on a setup/validation error, in which case the run aborts
with `fail` before any encoding. -/
theorem exit_code_setup_validation :
    (∀ (env : Env) (mv : Option (List ℕ)) (force : Bool) (np : ℤ) (files : List (List ℕ))
       (content : List ℕ → List ℕ) (sB sA : List ℕ → ℕ) (o : ℕ → Proc → Bool)
       (e : List ℕ → ℤ) (fuel : ℕ),
       (reencode_flac env mv force np files content sB sA o e fuel).isSome = true →
       Option.map EngineResult.ret (reencode_flac env mv force np files content sB sA o e fuel) =
         some (if setupOkB env mv then 0 else 1)) ∧
    (∀ (env : Env) (mv : Option (List ℕ)) (force : Bool) (np : ℤ) (files : List (List ℕ))
       (content : List ℕ → List ℕ) (sB sA : List ℕ → ℕ) (o : ℕ → Proc → Bool)
       (e : List ℕ → ℤ) (fuel : ℕ),
       setupOkB env mv = false →
       reencode_flac env mv force np files content sB sA o e fuel = some .fail) := by
  have part2 : ∀ (env : Env) (mv : Option (List ℕ)) (force : Bool) (np : ℤ)
      (files : List (List ℕ)) (content : List ℕ → List ℕ) (sB sA : List ℕ → ℕ)
      (o : ℕ → Proc → Bool) (e : List ℕ → ℤ) (fuel : ℕ),
      setupOkB env mv = false →
      reencode_flac env mv force np files content sB sA o e fuel = some .fail := by
    intro env mv force np files content sB sA o e fuel h
    cases henv : env.validDir with
    | false => simp [reencode_flac, henv]
    | true =>
      cases hlt : env.liveTok with
      | none => simp [reencode_flac, henv, hlt]
      | some tok =>
        cases hpv : parseVersion tok with
        | none => simp [reencode_flac, henv, hlt, hpv]
        | some lv =>
          cases mv with
          | none => simp [setupOkB, henv, hlt, hpv] at h
          | some s =>
            cases hps : parseVersion s with
            | none => simp [reencode_flac, henv, hlt, hpv, hps]
            | some m =>
              cases hvl : versionLt lv m with
              | true => simp [reencode_flac, henv, hlt, hpv, hps, hvl]
              | false => simp [setupOkB, henv, hlt, hpv, hps, hvl] at h
  refine ⟨?_, part2⟩
  intro env mv force np files content sB sA o e fuel hs
  by_cases hok : setupOkB env mv = true
  · rw [hok]
    simp only [if_true]
    cases henv : env.validDir with
    | false => simp [setupOkB, henv] at hok
    | true =>
      cases hlt : env.liveTok with
      | none => simp [setupOkB, henv, hlt] at hok
      | some tok =>
        cases hpv : parseVersion tok with
        | none => simp [setupOkB, henv, hlt, hpv] at hok
        | some lv =>
          cases mv with
          | none =>
            simp only [reencode_flac, henv, hlt, hpv] at hs ⊢
            rw [if_neg (by simp : ¬(true = false))] at hs ⊢
            rcases horch : orchRun o e (if np < 1 then 4 else np.toNat) fuel
                (if force then files.filter is_flac
                 else (files.filter is_flac).filter
                   (fun f => _needs_reencoding (content f) lv)) with _ | ⟨errs, tr⟩
            · rw [horch] at hs
              simp at hs
            · simp [EngineResult.ret]
          | some s =>
            cases hps : parseVersion s with
            | none => simp [setupOkB, henv, hlt, hpv, hps] at hok
            | some m =>
              cases hvl : versionLt lv m with
              | true => simp [setupOkB, henv, hlt, hpv, hps, hvl] at hok
              | false =>
                simp only [reencode_flac, henv, hlt, hpv, hps, hvl] at hs ⊢
                rw [if_neg (by simp : ¬(true = false))] at hs ⊢
                rw [if_neg (by simp : ¬(false = true))] at hs ⊢
                dsimp only at hs ⊢
                rcases horch : orchRun o e (if np < 1 then 4 else np.toNat) fuel
                    (if force then files.filter is_flac
                     else (files.filter is_flac).filter
                       (fun f => _needs_reencoding (content f) m)) with _ | ⟨errs, tr⟩
                · rw [horch] at hs
                  simp at hs
                · simp [EngineResult.ret]
  · have hok' : setupOkB env mv = false := by simpa using hok
    rw [hok', part2 env mv force np files content sB sA o e fuel hok']
    simp [EngineResult.ret]

/-- Witness for C8: a bad directory yields exit code 1; a good
environment yields exit code 0. -/
theorem exit_code_setup_validation_witness :
    reencode_flac ⟨false, none⟩ none false 4 [] (fun _ => []) (fun _ => 0) (fun _ => 0)
      (fun _ _ => true) (fun _ => 0) 1 = some .fail ∧
    Option.map EngineResult.ret
      (reencode_flac envGood none true 4 [] (fun _ => []) (fun _ => 0) (fun _ => 0)
        (fun _ _ => true) (fun _ => 0) 1) =
      some (if setupOkB envGood none then 0 else 1) :=
  ⟨exit_code_setup_validation.2 ⟨false, none⟩ none false 4 [] (fun _ => []) (fun _ => 0)
      (fun _ => 0) (fun _ _ => true) (fun _ => 0) 1 (by decide),
   exit_code_setup_validation.1 envGood none true 4 [] (fun _ => []) (fun _ => 0)
      (fun _ => 0) (fun _ _ => true) (fun _ => 0) 1 (by decide)⟩

/-- Sizes before encoding for the C6 instance. -/
def sizesBeforeCex : List ℕ → ℕ := fun p => if p = pyStr "a.flac" then 1000 else 2000

/-- Sizes after encoding for the C6 instance. -/
def sizesAfterCex : List ℕ → ℕ := fun p => if p = pyStr "a.flac" then 800 else 1900

/-- C6 counterexample: with candidate sizes `[1000, 2000]` before and
`[800, 1900]` after, the savings the engine reports are `0` (it reports
whole megabytes, `int(sum/1000**2)` on each total), not the `300` bytes
the claim states. -/
theorem savings_bytes_counterexample :
    savedOf (reencode_flac envGood none true 4 [pyStr "a.flac", pyStr "b.flac"] (fun _ => [])
      sizesBeforeCex sizesAfterCex (fun _ _ => true) (fun _ => 0) 4) = some 0 ∧
    (0 : ℤ) ≠ 300 := by
  constructor
  · decide
  · decide

/-- C6 (amended): the engine re-sums the sizes of the same path list
after the orchestrator returns, but reports sizes and savings in whole
megabytes (each byte total divided by 1000², truncated); for candidate
sizes `[1000, 2000]` before and `[800, 1900]` after, the reported
savings are 0 MB.  The difference is computed in ℤ, as-is, not
clamped. -/
theorem savings_reported_in_MB (p1 p2 : List ℕ) (np : ℤ) (content : List ℕ → List ℕ)
    (sB sA : List ℕ → ℕ) (o : ℕ → Proc → Bool) (e : List ℕ → ℤ) (fuel : ℕ)
    (h1 : is_flac p1 = true) (h2 : is_flac p2 = true)
    (hb1 : sB p1 = 1000) (hb2 : sB p2 = 2000) (ha1 : sA p1 = 800) (ha2 : sA p2 = 1900)
    (hs : (reencode_flac envGood none true np [p1, p2] content sB sA o e fuel).isSome = true) :
    savedOf (reencode_flac envGood none true np [p1, p2] content sB sA o e fuel) = some 0 := by
  have hpv : parseVersion (pyStr "1.5.0") = some [1, 5, 0] := by decide
  simp only [reencode_flac, envGood, hpv] at hs ⊢
  rw [if_neg (by simp : ¬(true = false))] at hs ⊢
  simp only [if_true, List.filter_cons, List.filter_nil, h1, h2] at hs ⊢
  simp only [List.map_cons, List.map_nil, List.sum_cons, List.sum_nil,
    hb1, hb2, ha1, ha2] at hs ⊢
  rcases horch : orchRun o e (if np < 1 then 4 else np.toNat) fuel [p1, p2]
      with _ | ⟨errs, tr⟩
  · rw [horch] at hs
    simp at hs
  · simp [savedOf]

/-- Witness for the amended C6 at two concrete candidate files. -/
theorem savings_reported_in_MB_witness :
    savedOf (reencode_flac envGood none true 4 [pyStr "a.flac", pyStr "b.flac"] (fun _ => [])
      sizesBeforeCex sizesAfterCex (fun _ _ => true) (fun _ => 0) 4) = some 0 :=
  savings_reported_in_MB (pyStr "a.flac") (pyStr "b.flac") 4 (fun _ => [])
    sizesBeforeCex sizesAfterCex (fun _ _ => true) (fun _ => 0) 4
    (by decide) (by decide) (by decide) (by decide) (by decide) (by decide) (by decide)
